import Mathlib

/-!
Verification of the directory-synchronization core of `cb_patcher`
(`src/patcher.rs`, `src/fs_utils.rs`) against its specification.

Modelling conventions (shallow embedding):
- Byte strings are `List Nat` (each element a byte value), paths and other
  strings are `List Char`.
- The filesystem under the mod root is an association list from a file's
  path (relative to the mod root, with forward slashes) to its content.
  `fs::read` is modelled as total (in the Rust code a failing read leaves
  `is_different = true`; no claim depends on that corner).
- The zip archive is the list of its entries in index order; `is_dir`
  follows the zip crate (name ends with a slash or backslash).
- Fallible filesystem operations are driven by an explicit `FsBehavior`
  telling which writes and which removals fail; `fs::write` failure
  propagates as an error (the `?` operator), while `fs::remove_file` is
  called as `let _ = ...`, so a failed removal leaves the file in place and
  execution continues.
- The progress logger is modelled as the list of per-file events emitted
  (New / Updated / Deleted); banner messages are not modelled.
-/

abbrev Bytes := List Nat

abbrev FPath := List Char

/-- One entry of the downloaded zip archive: its full name inside the
archive and its decompressed byte content. -/
structure ZipEntry where
  name : FPath
  content : Bytes
  deriving Repr, DecidableEq

/-- The zip crate's `is_dir`: the entry name ends with a path separator. -/
def ZipEntry.isDir (e : ZipEntry) : Bool :=
  e.name.getLast? == some '/' || e.name.getLast? == some '\\'

/-- Split a path on the forward-slash separator. -/
def splitSlash (p : FPath) : List FPath :=
  p.foldr (fun c acc => if c = '/' then [] :: acc else (c :: acc.headD []) :: acc.tail) [[]]

/-- Last path component, as `Path::file_name().unwrap_or_default()` on the
file paths produced by the walk. -/
def baseName (p : FPath) : FPath :=
  (splitSlash p).getLastD []

/-- From `patcher.rs` lines 41-51: the archive root folder name is the first
entry's name up to and including its first slash; empty when there is no
entry or no slash. -/
def rootName (arch : List ZipEntry) : FPath :=
  match arch with
  | [] => []
  | e :: _ =>
    match e.name.findIdx? (fun c => c = '/') with
    | some i => e.name.take (i + 1)
    | none => []

/-- From `patcher.rs` lines 59-76: which relative path (if any) an entry is
extracted to.  Directories, entries outside the root folder, entries whose
stripped path is empty, and stripped paths starting with the string
`.git` are skipped. -/
def entryTarget (root : FPath) (e : ZipEntry) : Option FPath :=
  if e.isDir then none
  else if !(root.isPrefixOf e.name) then none
  else if (e.name.drop root.length).isEmpty then none
  else if (".git".data).isPrefixOf (e.name.drop root.length) then none
  else some (e.name.drop root.length)

/-- The files under the mod root: path (relative to the root) to content. -/
abbrev FS := List (FPath × Bytes)

/-- Model of `fs::read` and `Path::exists`: first binding of the path, if any. -/
def fsRead (fs : FS) (p : FPath) : Option Bytes :=
  (fs.find? (fun kv => kv.1 == p)).map (fun kv => kv.2)

/-- Model of `fs::write`: full replacement of the file's content. -/
def fsWrite (fs : FS) (p : FPath) (c : Bytes) : FS :=
  (p, c) :: fs.filter (fun kv => !(kv.1 == p))

/-- Model of `fs::remove_file`. -/
def fsRemove (fs : FS) (p : FPath) : FS :=
  fs.filter (fun kv => !(kv.1 == p))

/-- Which filesystem operations fail, for modelling I/O errors. -/
structure FsBehavior where
  writeFails : FPath → Bool
  removeFails : FPath → Bool

/-- The behaviour on which no filesystem operation fails. -/
def fbOk : FsBehavior := ⟨fun _ => false, fun _ => false⟩

/-- Per-file progress events emitted by `sync`'s logger. -/
inductive Ev where
  | new (p : FPath)
  | updated (p : FPath)
  | deleted (p : FPath)
  deriving Repr, DecidableEq

/-- The error a failing `fs::write` propagates out of `sync`. -/
inductive SyncErr where
  | localIo (p : FPath)
  deriving Repr, DecidableEq

instance {ε α : Type} [DecidableEq ε] [DecidableEq α] : DecidableEq (Except ε α) := fun a b =>
  match a, b with
  | .ok x, .ok y =>
    if h : x = y then isTrue (by rw [h]) else isFalse (fun hc => h (by injection hc))
  | .error x, .error y =>
    if h : x = y then isTrue (by rw [h]) else isFalse (fun hc => h (by injection hc))
  | .ok _, .error _ => isFalse (fun hc => Except.noConfusion hc)
  | .error _, .ok _ => isFalse (fun hc => Except.noConfusion hc)

/-- From `patcher.rs` lines 55-105, one loop iteration: skip or compare-and-write
one archive entry, threading the filesystem, the processed set and the
event log.  The processed path is recorded before the write; a failing
write aborts with the error.  The filesystem is keyed by the stripped
relative path string; this coincides with the real location
(`mod_path.join(rel)`, with the operating system resolving `..` at access
time) exactly when the path is normalized — see `cleanPath`, the
normalization bridge in the idempotence theorem, and the root-escape
theorem for the unnormalized case. -/
def processEntry (fb : FsBehavior) (root : FPath) (st : FS × List FPath × List Ev)
    (e : ZipEntry) : Except SyncErr (FS × List FPath × List Ev) :=
  match entryTarget root e with
  | none => .ok st
  | some rel =>
    match fsRead st.1 rel with
    | some lc =>
      if lc == e.content then .ok (st.1, rel :: st.2.1, st.2.2)
      else if fb.writeFails rel then .error (.localIo rel)
      else .ok (fsWrite st.1 rel e.content, rel :: st.2.1, st.2.2 ++ [Ev.updated rel])
    | none =>
      if fb.writeFails rel then .error (.localIo rel)
      else .ok (fsWrite st.1 rel e.content, rel :: st.2.1, st.2.2 ++ [Ev.new rel])

/-- The extraction loop over all archive entries; the `?` operator on any
failing step aborts the loop with that error. -/
def writePhase (fb : FsBehavior) (root : FPath) :
    FS × List FPath × List Ev → List ZipEntry →
      Except SyncErr (FS × List FPath × List Ev)
  | st, [] => .ok st
  | st, e :: rest =>
    match processEntry fb root st e with
    | .error err => .error err
    | .ok st' => writePhase fb root st' rest

/-- From `patcher.rs` lines 121-124: filenames never deleted. -/
def ignoredName (p : FPath) : Bool :=
  baseName p == ".DS_Store".data || baseName p == "Thumbs.db".data

/-- From `patcher.rs` lines 110-132, one walk step of the deletion phase: a file
not in the processed set and not ignore-listed is logged as deleted and
removed; the removal's result is discarded (`let _ = fs::remove_file`), so
a failing removal leaves the file and execution continues.  The processed
set is compared by path string here, while the program compares walked
paths against joined paths component-wise with `..` unresolved; the two
agree exactly on normalized paths (`cleanPath`), the hypothesis the
idempotence theorem carries. -/
def deleteStep (fb : FsBehavior) (pr : List FPath) (st : FS × List Ev)
    (kv : FPath × Bytes) : FS × List Ev :=
  if pr.contains kv.1 then st
  else if ignoredName kv.1 then st
  else (if fb.removeFails kv.1 then st.1 else fsRemove st.1 kv.1,
    st.2 ++ [Ev.deleted kv.1])

/-- The deletion walk over the snapshot of the tree as it stands after the
write phase (`walkdir` yields each file once; later removals only affect
already-yielded entries). -/
def deletePhase (fb : FsBehavior) (pr : List FPath) (fs : FS) (log : List Ev) :
    FS × List Ev :=
  fs.foldl (deleteStep fb pr) (fs, log)

/-- Model of `Patcher::sync` (`patcher.rs` lines 22-138): derive the root prefix
from the first entry, extract and compare every entry, then walk the local
tree deleting files that were not processed, and return the final local
state together with the emitted events. -/
def sync (arch : List ZipEntry) (fb : FsBehavior) (fs : FS) :
    Except SyncErr (FS × List Ev) :=
  match writePhase fb (rootName arch) (fs, [], []) arch with
  | .error e => .error e
  | .ok (fs', pr, log) => .ok (deletePhase fb pr fs' log)

/-- The effect of one loop iteration when no filesystem operation fails:
`processEntry fbOk` always succeeds with this state (proved below); used
to reason about complete failure-free runs. -/
def stepOk (root : FPath) (st : FS × List FPath × List Ev) (e : ZipEntry) :
    FS × List FPath × List Ev :=
  match entryTarget root e with
  | none => st
  | some rel =>
    match fsRead st.1 rel with
    | some lc =>
      if lc == e.content then (st.1, rel :: st.2.1, st.2.2)
      else (fsWrite st.1 rel e.content, rel :: st.2.1, st.2.2 ++ [Ev.updated rel])
    | none => (fsWrite st.1 rel e.content, rel :: st.2.1, st.2.2 ++ [Ev.new rel])

/-- The failure-free write phase (`writePhase fbOk`, proved below). -/
def writePure (root : FPath) :
    FS × List FPath × List Ev → List ZipEntry → FS × List FPath × List Ev
  | st, [] => st
  | st, e :: rest => writePure root (stepOk root st e) rest

/-! ## SHA1 and the blob fingerprint (`fs_utils.rs` lines 98-118) -/

/-- Truncation to a 32-bit word. -/
def w32 (n : Nat) : Nat := n % 4294967296

/-- Rotate a 32-bit word left by `s` bits. -/
def rotl (s n : Nat) : Nat := ((n <<< s) ||| (n >>> (32 - s))) % 4294967296

/-- Big-endian 32-bit words from a block of bytes. -/
def bytesToWords : List Nat → List Nat
  | b0 :: b1 :: b2 :: b3 :: rest =>
    (((b0 * 256 + b1) * 256 + b2) * 256 + b3) :: bytesToWords rest
  | _ => []

/-- Append the next word of the SHA1 message schedule. -/
def extendStep (w : List Nat) : List Nat :=
  let n := w.length
  w ++ [rotl 1 ((w.getD (n - 3) 0) ^^^ (w.getD (n - 8) 0) ^^^ (w.getD (n - 14) 0) ^^^ (w.getD (n - 16) 0))]

/-- Iterate a function `n` times. -/
def iterApply (f : α → α) : Nat → α → α
  | 0, a => a
  | n + 1, a => iterApply f n (f a)

/-- The 80-word SHA1 message schedule from the 16 block words. -/
def sha1Schedule (w16 : List Nat) : List Nat := iterApply extendStep 64 w16

/-- The SHA1 round function for round `t`. -/
def sha1F (t b c d : Nat) : Nat :=
  if t < 20 then (b &&& c) ||| ((b ^^^ 4294967295) &&& d)
  else if t < 40 then b ^^^ c ^^^ d
  else if t < 60 then (b &&& c) ||| (b &&& d) ||| (c &&& d)
  else b ^^^ c ^^^ d

/-- The SHA1 round constant for round `t`. -/
def sha1K (t : Nat) : Nat :=
  if t < 20 then 1518500249
  else if t < 40 then 1859775393
  else if t < 60 then 2400959708
  else 3395469782

/-- One SHA1 round on the five-word working state. -/
def sha1Round (st : Nat × Nat × Nat × Nat × Nat) (tw : Nat × Nat) :
    Nat × Nat × Nat × Nat × Nat :=
  let temp := w32 (rotl 5 st.1 + sha1F tw.1 st.2.1 st.2.2.1 st.2.2.2.1 + st.2.2.2.2 + sha1K tw.1 + tw.2)
  (temp, st.1, rotl 30 st.2.1, st.2.2.1, st.2.2.2.1)

/-- Compress one 64-byte block into the running SHA1 state. -/
def processBlock (h : Nat × Nat × Nat × Nat × Nat) (block : List Nat) :
    Nat × Nat × Nat × Nat × Nat :=
  let r := (sha1Schedule (bytesToWords block)).enum.foldl sha1Round h
  (w32 (h.1 + r.1), w32 (h.2.1 + r.2.1), w32 (h.2.2.1 + r.2.2.1),
   w32 (h.2.2.2.1 + r.2.2.2.1), w32 (h.2.2.2.2 + r.2.2.2.2))

/-- Fuel-driven worker for `chunked`; the fuel bounds the number of chunks
produced and is always instantiated with the list's length. -/
def chunkedAux (n : Nat) : Nat → List Nat → List (List Nat)
  | _, [] => []
  | 0, _ :: _ => []
  | fuel + 1, x :: xs => (x :: xs).take n :: chunkedAux n fuel ((x :: xs).drop n)

/-- Split a byte list into consecutive chunks of `n` bytes (the last chunk
may be shorter). -/
def chunked (n : Nat) (l : List Nat) : List (List Nat) := chunkedAux n l.length l

/-- Big-endian byte expansion: `k` bytes of `n`. -/
def beBytes : Nat → Nat → List Nat
  | 0, _ => []
  | k + 1, n => beBytes k (n / 256) ++ [n % 256]

/-- SHA1 padding: a `0x80` byte, zeros up to 56 mod 64, and the bit length
as eight big-endian bytes. -/
def sha1Pad (msg : List Nat) : List Nat :=
  msg ++ [128] ++ List.replicate ((64 + 56 - ((msg.length + 1) % 64)) % 64) 0
      ++ beBytes 8 (msg.length * 8)

/-- SHA1 of a byte string, as its 20 digest bytes. -/
def sha1Bytes (msg : List Nat) : List Nat :=
  let r := (chunked 64 (sha1Pad msg)).foldl processBlock
    (1732584193, 4023233417, 2562383102, 271733878, 3285377520)
  beBytes 4 r.1 ++ beBytes 4 r.2.1 ++ beBytes 4 r.2.2.1 ++ beBytes 4 r.2.2.2.1
      ++ beBytes 4 r.2.2.2.2

/-- Lowercase hex digit of a value below 16. -/
def hexDigit (n : Nat) : Char :=
  if n < 10 then Char.ofNat (48 + n) else Char.ofNat (87 + n)

/-- Model of `hex::encode`: two lowercase hex digits per byte. -/
def hexEncode (bs : List Nat) : List Char :=
  bs.foldr (fun b acc => hexDigit (b / 16) :: hexDigit (b % 16) :: acc) []

/-- The `"blob {size}\0"` header fed to the hasher
(`fs_utils.rs` line 104), as bytes. -/
def blobHeader (size : Nat) : Bytes :=
  (("blob " ++ toString size).data.map Char.toNat) ++ [0]

/-- The `sha1` crate's incremental hasher state: the bytes accumulated so
far; `update` appends, `finalize` hashes the accumulation. -/
def hasherUpdate (h : Bytes) (bs : Bytes) : Bytes := h ++ bs

/-- Model of `calculate_github_sha1` (`fs_utils.rs` lines 98-118): feed the blob
header, then the file content in successive 1024-byte chunks, into SHA1,
and hex-encode the digest.  The file's metadata size equals its content
length. -/
def calculate_github_sha1 (content : Bytes) : List Char :=
  let h := hasherUpdate [] (blobHeader content.length)
  let h := (chunked 1024 content).foldl hasherUpdate h
  hexEncode (sha1Bytes h)

/-- Reference one-shot definition of the blob fingerprint: hex-encoded
SHA1 of the header concatenated with the whole content in one update. -/
def github_sha1_oneshot (content : Bytes) : List Char :=
  hexEncode (sha1Bytes (blobHeader content.length ++ content))

/-! ## Where a written target actually lands on disk (for the root-escape
property): `PathBuf::join` keeps `..` components, which the operating
system resolves against the parent directory at access time. -/

/-- Nonempty components of a relative path. -/
def pathSegments (p : FPath) : List FPath :=
  (splitSlash p).filter (fun s => !s.isEmpty)

/-- Resolve `..` components lexically against the accumulated directory. -/
def resolveDots (segs : List FPath) : List FPath :=
  segs.foldl (fun acc seg => if seg = ['.', '.'] then acc.dropLast else acc ++ [seg]) []

/-- The real location of `mod_path.join(rel)` for a relative `rel`:
the mod root's components followed by `rel`'s components, with `..`
resolved. -/
def targetRealPath (modRoot : List FPath) (rel : FPath) : List FPath :=
  resolveDots (modRoot ++ pathSegments rel)

/-- A relative path escapes the mod root when the joined path does not
stay below the root's components. -/
def escapesRoot (modRoot : List FPath) (rel : FPath) : Bool :=
  !(modRoot.isPrefixOf (targetRealPath modRoot rel))

/-- Join path segments back with slashes: the canonical string form of a
relative path. -/
def joinSegs : List FPath → FPath
  | [] => []
  | [s] => s
  | s :: rest => s ++ '/' :: joinSegs rest

/-- A normalized relative path: nonempty slash-separated segments, none
of which is `.` or `..`.  These are exactly the relative-path strings
that real files under the mod root are walked as, and on them the string
keying used by the model coincides with the real file location. -/
def cleanPath (p : FPath) : Bool :=
  (splitSlash p).all (fun s => !s.isEmpty && !(s == ['.']) && !(s == ['.', '.']))

/-- Model of `scan_local_files` (`fs_utils.rs` lines 121-137), built on the walk's
output: from the list of (relative path with separators normalized,
content) pairs for the regular files under the root, drop paths starting
with a dot and pair the rest with their blob fingerprint. -/
def scan_local_files (files : List (FPath × Bytes)) : List (FPath × List Char) :=
  (files.filter (fun kv => !(kv.1.headD ' ' == '.'))).map
    (fun kv => (kv.1, calculate_github_sha1 kv.2))

/-! ## Helper lemmas -/

theorem chunkedAux_foldl_hasherUpdate (n : Nat) (hn : 0 < n) :
    ∀ fuel l acc, l.length ≤ fuel →
      (chunkedAux n fuel l).foldl hasherUpdate acc = acc ++ l := by
  intro fuel
  induction fuel with
  | zero =>
    intro l acc hl
    have : l = [] := List.eq_nil_of_length_eq_zero (Nat.le_zero.mp hl)
    subst this
    simp [chunkedAux]
  | succ fuel ih =>
    intro l acc hl
    cases l with
    | nil => simp [chunkedAux]
    | cons x xs =>
      simp only [chunkedAux, List.foldl_cons]
      rw [ih ((x :: xs).drop n) (hasherUpdate acc ((x :: xs).take n))
          (by simp only [List.length_drop, List.length_cons]
              simp only [List.length_cons] at hl
              omega)]
      simp [hasherUpdate, List.append_assoc]

theorem calc_github_sha1_eq_oneshot (content : Bytes) :
    calculate_github_sha1 content = github_sha1_oneshot content := by
  simp only [calculate_github_sha1, github_sha1_oneshot, chunked]
  rw [chunkedAux_foldl_hasherUpdate 1024 (by norm_num) content.length content
      (hasherUpdate [] (blobHeader content.length)) (Nat.le_refl _)]
  simp [hasherUpdate]

/-- C10: feeding the blob header and then the content in successive
1024-byte chunks into the incremental SHA1 hasher yields the same
fingerprint as the reference one-shot definition hashing the header
concatenated with the entire content in a single update. -/
theorem calculate_github_sha1_streaming_refines_oneshot (content : Bytes) :
    calculate_github_sha1 content = github_sha1_oneshot content :=
  calc_github_sha1_eq_oneshot content

set_option maxRecDepth 4000 in
/-- C3: for every content, `calculate_github_sha1` equals the hex-encoded
SHA1 of `"blob " ++ decimal length ++ "\0" ++ content`; in particular on
the 3-byte content `abc` it equals the precomputed fixture
`f2ba8f84ab5c1bce84a7b441cb1959cfc7093b7f`. -/
theorem calculate_github_sha1_blob_scheme :
    (∀ content : Bytes, calculate_github_sha1 content =
      hexEncode (sha1Bytes (blobHeader content.length ++ content))) ∧
    calculate_github_sha1 ("abc".data.map Char.toNat) =
      "f2ba8f84ab5c1bce84a7b441cb1959cfc7093b7f".data := by
  constructor
  · intro content
    exact calc_github_sha1_eq_oneshot content
  · decide

/-- C1 counterexample: a zip archive may carry two entries with the same
name and different contents; syncing such an archive twice performs writes
on the second run as well, so idempotence fails for it as stated. -/
theorem sync_duplicate_entries_rewrite :
    sync [⟨"p/a".data, [1]⟩, ⟨"p/a".data, [2]⟩] fbOk [] =
      .ok ([("a".data, [2])], [Ev.new "a".data, Ev.updated "a".data]) ∧
    sync [⟨"p/a".data, [1]⟩, ⟨"p/a".data, [2]⟩] fbOk [("a".data, [2])] =
      .ok ([("a".data, [2])], [Ev.updated "a".data, Ev.updated "a".data]) := by
  exact ⟨by decide, by decide⟩

/-- C2 (code bug): the archive entry `p/../evil.txt` is not sanitized: it
is extracted to the relative path `../evil.txt`, which resolves outside
the mod root, and sync writes it (the run succeeds and logs it as new). -/
theorem sync_writes_entry_escaping_root :
    entryTarget (rootName [⟨"p/ok.txt".data, [1]⟩, ⟨"p/../evil.txt".data, [2]⟩])
        ⟨"p/../evil.txt".data, [2]⟩ = some "../evil.txt".data ∧
    escapesRoot ["mods".data, "cb".data] "../evil.txt".data = true ∧
    sync [⟨"p/ok.txt".data, [1]⟩, ⟨"p/../evil.txt".data, [2]⟩] fbOk [] =
      .ok ([("../evil.txt".data, [2]), ("ok.txt".data, [1])],
        [Ev.new "ok.txt".data, Ev.new "../evil.txt".data]) := by
  exact ⟨by decide, by decide, by decide⟩

/-- C5 counterexample: with an empty archive and a local file whose
removal fails, sync ignores the failed removal (`let _ = fs::remove_file`),
leaves the file in place, still logs it as deleted, and reports success
instead of propagating the error. -/
theorem sync_ignores_remove_failure :
    sync [] ⟨fun _ => false, fun _ => true⟩ [("old.txt".data, [1])] =
      .ok ([("old.txt".data, [1])], [Ev.deleted "old.txt".data]) := by
  decide

/-- C7 counterexample: the stripped path `.hidden/f` has a first segment
starting with a dot but does not start with the string `.git`, so sync
writes it, logs it, and records it as processed. -/
theorem sync_writes_hidden_entry :
    sync [⟨"p/.hidden/f".data, [7]⟩] fbOk [] =
      .ok ([(".hidden/f".data, [7])], [Ev.new ".hidden/f".data]) := by
  decide

/-- C8 counterexample: when the first entry's name has no slash, sync does
not fail; it proceeds with an empty prefix and extracts the entry under
its full name. -/
theorem sync_without_prefix_extracts :
    sync [⟨"file.txt".data, [5]⟩] fbOk [] =
      .ok ([("file.txt".data, [5])], [Ev.new "file.txt".data]) := by
  decide

theorem findIdx?_slash_after (pre suf : FPath) (hpre : '/' ∉ pre) :
    (pre ++ '/' :: suf).findIdx? (fun c => c = '/') = some pre.length := by
  induction pre with
  | nil => simp [List.findIdx?_cons]
  | cons x xs ih =>
    have hx : ¬ x = '/' := fun hh => hpre (hh ▸ List.mem_cons_self x xs)
    have hxs : '/' ∉ xs := fun hh => hpre (List.mem_cons_of_mem _ hh)
    simp [List.findIdx?_cons, hx, ih hxs]

theorem findIdx?_slash_none (l : FPath) (h : '/' ∉ l) :
    l.findIdx? (fun c => c = '/') = none := by
  induction l with
  | nil => rfl
  | cons x xs ih =>
    have hx : ¬ x = '/' := fun hh => h (hh ▸ List.mem_cons_self x xs)
    simp [List.findIdx?_cons, hx, ih (fun hh => h (List.mem_cons_of_mem _ hh))]

theorem entryTarget_some (root : FPath) (e : ZipEntry) (rel : FPath)
    (h : entryTarget root e = some rel) :
    e.isDir = false ∧ e.name = root ++ rel ∧ rel ≠ [] ∧
      (".git".data).isPrefixOf rel = false := by
  unfold entryTarget at h
  split at h
  · exact absurd h (by simp)
  split at h
  · exact absurd h (by simp)
  split at h
  · exact absurd h (by simp)
  split at h
  · exact absurd h (by simp)
  rename_i hdir hpref hemp hgit
  have hrel : e.name.drop root.length = rel := by injection h
  have hb : root.isPrefixOf e.name = true := by
    revert hpref; cases root.isPrefixOf e.name <;> simp
  obtain ⟨t, ht⟩ := List.isPrefixOf_iff_prefix.mp hb
  have hdrop : e.name.drop root.length = t := by
    rw [← ht]; exact List.drop_left root t
  refine ⟨?_, ?_, ?_, ?_⟩
  · revert hdir; cases e.isDir <;> simp
  · rw [← ht, ← hrel, hdrop]
  · intro hnil
    rw [hrel, hnil] at hemp
    simp at hemp
  · rw [← hrel]
    revert hgit
    cases (".git".data).isPrefixOf (e.name.drop root.length) <;> simp

/-- C4: when the first entry's name contains a slash, the root prefix is
the first entry's name up to and including its first slash; every entry
that is extracted has a name equal to the prefix followed by its nonempty
relative path; and an entry named exactly the prefix is skipped. -/
theorem sync_prefix_stripping (pre suf : FPath) (c0 : Bytes) (rest : List ZipEntry)
    (hpre : '/' ∉ pre) :
    rootName (⟨pre ++ '/' :: suf, c0⟩ :: rest) = pre ++ ['/'] ∧
    (∀ (e : ZipEntry) (rel : FPath),
      entryTarget (pre ++ ['/']) e = some rel → e.name = (pre ++ ['/']) ++ rel ∧ rel ≠ []) ∧
    (∀ c : Bytes, entryTarget (pre ++ ['/']) ⟨pre ++ ['/'], c⟩ = none) := by
  refine ⟨?_, ?_, ?_⟩
  · simp only [rootName]
    rw [findIdx?_slash_after pre suf hpre]
    have : pre.length + 1 = pre.length + [' '].length := by simp
    simp [List.take_append]
  · intro e rel h
    obtain ⟨_, hname, hne, _⟩ := entryTarget_some _ _ _ h
    exact ⟨hname, hne⟩
  · intro c
    unfold entryTarget
    have : (ZipEntry.mk (pre ++ ['/']) c).isDir = true := by
      simp [ZipEntry.isDir]
    rw [this]
    rfl

theorem sync_prefix_stripping_witness :
    rootName [⟨"owner-repo-abcdef1".data ++ '/' :: "mod.xml".data, [1]⟩] =
      "owner-repo-abcdef1".data ++ ['/'] :=
  (sync_prefix_stripping "owner-repo-abcdef1".data "mod.xml".data [1] [] (by decide)).1

/-- C7 (amended): an entry whose stripped relative path is empty or starts
with the string `.git` is skipped: it is not written, not logged and not
added to the processed set.  (A stripped path such as `.hidden/x`, whose
first segment starts with a dot but not with `.git`, is not skipped.) -/
theorem sync_skips_empty_or_git_entries (fb : FsBehavior) (root : FPath)
    (fs : FS) (pr : List FPath) (log : List Ev) (e : ZipEntry)
    (h : e.name.drop root.length = [] ∨
      (".git".data).isPrefixOf (e.name.drop root.length) = true) :
    processEntry fb root (fs, pr, log) e = .ok (fs, pr, log) := by
  have ht : entryTarget root e = none := by
    rcases h with h | h
    · simp [entryTarget, h]
    · simp [entryTarget, h]
  simp [processEntry, ht]

theorem sync_skips_empty_or_git_entries_witness :
    processEntry fbOk "p/".data ([], [], []) ⟨"p/.gitignore".data, [1]⟩ =
      .ok ([], [], []) :=
  sync_skips_empty_or_git_entries fbOk "p/".data [] [] [] ⟨"p/.gitignore".data, [1]⟩
    (by decide)

/-- C8 (amended): when the first entry's name contains no slash, the
computed prefix is empty and sync proceeds instead of failing: every
non-directory entry with a nonempty name not starting with `.git` is
extracted under its full name (the code has no archive-format error
path). -/
theorem sync_empty_prefix_extracts_full_names (e0 : ZipEntry) (rest : List ZipEntry)
    (h : '/' ∉ e0.name) :
    rootName (e0 :: rest) = [] ∧
    ∀ e : ZipEntry, e.isDir = false → e.name ≠ [] →
      (".git".data).isPrefixOf e.name = false →
      entryTarget (rootName (e0 :: rest)) e = some e.name := by
  have hroot : rootName (e0 :: rest) = [] := by
    simp only [rootName]
    rw [findIdx?_slash_none e0.name h]
  refine ⟨hroot, ?_⟩
  intro e hdir hne hgit
  rw [hroot]
  have hp : ([] : FPath).isPrefixOf e.name = true := by
    cases e.name <;> rfl
  have hemp : e.name.isEmpty = false := by
    cases hn : e.name
    · exact absurd hn hne
    · rfl
  simp [entryTarget, hdir, hp, hemp, hgit]

theorem sync_empty_prefix_extracts_full_names_witness :
    entryTarget (rootName [⟨"file.txt".data, [5]⟩]) ⟨"file.txt".data, [5]⟩ =
      some "file.txt".data :=
  (sync_empty_prefix_extracts_full_names ⟨"file.txt".data, [5]⟩ [] (by decide)).2
    ⟨"file.txt".data, [5]⟩ (by decide) (by decide) (by decide)

/-- C9 counterexample: a local file under `.git` that is absent remotely
is deleted by sync's deletion phase, which walks the tree directly instead
of using `scan_local_files`. -/
theorem sync_deletes_local_dot_file :
    sync [⟨"p/a".data, [1]⟩] fbOk [(".git/config".data, [9])] =
      .ok ([("a".data, [1])], [Ev.new "a".data, Ev.deleted ".git/config".data]) := by
  decide

/-- C9 (amended): `scan_local_files` does exclude every file whose
relative path starts with a dot from the inventory it builds — but sync's
deletion phase does not consult that inventory, so such files are still
deleted when absent remotely, per the deletion counterexample. -/
theorem scan_local_files_excludes_dot_paths (files : List (FPath × Bytes))
    (p : FPath) (y : List Char) (hp : p.head? = some '.') :
    (p, y) ∉ scan_local_files files := by
  intro hmem
  unfold scan_local_files at hmem
  obtain ⟨kv, hkv, heq⟩ := List.mem_map.mp hmem
  have h1 : kv.1 = p := by
    have := congrArg Prod.fst heq
    simpa using this
  have h2 := (List.mem_filter.mp hkv).2
  rw [h1] at h2
  cases p with
  | nil => simp at hp
  | cons a t =>
    have ha : a = '.' := by simpa using hp
    rw [ha] at h2
    simp at h2

theorem scan_local_files_excludes_dot_paths_witness :
    (".gitignore".data, ([] : List Char)) ∉ scan_local_files [(".gitignore".data, [1])] :=
  scan_local_files_excludes_dot_paths _ _ _ (by decide)

theorem writePhase_append_error (fb : FsBehavior) (root : FPath)
    (a1 a2 : List ZipEntry) (st : FS × List FPath × List Ev) (err : SyncErr)
    (h : writePhase fb root st a1 = .error err) :
    writePhase fb root st (a1 ++ a2) = .error err := by
  induction a1 generalizing st with
  | nil => simp [writePhase] at h
  | cons a l ih =>
    rw [List.cons_append]
    simp only [writePhase] at h ⊢
    cases hp : processEntry fb root st a with
    | error e =>
      rw [hp] at h
      exact h
    | ok st' =>
      rw [hp] at h
      exact ih st' h

theorem writePhase_writeFails_only (w r r' : FPath → Bool) (root : FPath) :
    ∀ (arch : List ZipEntry) (st : FS × List FPath × List Ev),
      writePhase ⟨w, r⟩ root st arch = writePhase ⟨w, r'⟩ root st arch := by
  intro arch
  induction arch with
  | nil => intro st; rfl
  | cons a l ih =>
    intro st
    simp only [writePhase]
    have hpe : processEntry ⟨w, r⟩ root st a = processEntry ⟨w, r'⟩ root st a := rfl
    rw [← hpe]
    cases processEntry ⟨w, r⟩ root st a with
    | error e => rfl
    | ok st' => exact ih st'

theorem sync_removeFails_irrelevant (arch : List ZipEntry)
    (w r r' : FPath → Bool) (fs : FS) :
    (sync arch ⟨w, r⟩ fs).isOk = (sync arch ⟨w, r'⟩ fs).isOk := by
  have hw := writePhase_writeFails_only w r r' (rootName arch) arch (fs, [], [])
  simp only [sync, hw]
  cases h : writePhase ⟨w, r'⟩ (rootName arch) (fs, [], []) arch with
  | error e => rfl
  | ok out =>
    obtain ⟨fs', pr, log⟩ := out
    rfl

/-- C5 (amended): an error in the download-and-write phase aborts sync
immediately: once an entry fails, no later entry is processed and the
error is the result.  An error while removing a file in the deletion
phase, however, is discarded (`let _ = fs::remove_file`): whether removals
fail has no effect on whether sync reports success. -/
theorem sync_abort_and_ignore_semantics :
    (∀ (fb : FsBehavior) (root : FPath) (a1 a2 : List ZipEntry)
        (st : FS × List FPath × List Ev) (err : SyncErr),
      writePhase fb root st a1 = .error err →
      writePhase fb root st (a1 ++ a2) = .error err) ∧
    (∀ (arch : List ZipEntry) (w r r' : FPath → Bool) (fs : FS),
      (sync arch ⟨w, r⟩ fs).isOk = (sync arch ⟨w, r'⟩ fs).isOk) :=
  ⟨writePhase_append_error, sync_removeFails_irrelevant⟩

theorem sync_abort_and_ignore_semantics_witness :
    writePhase ⟨fun _ => true, fun _ => false⟩ "p/".data ([], [], [])
      ([⟨"p/a".data, [1]⟩] ++ [⟨"p/b".data, [2]⟩]) = .error (.localIo "a".data) :=
  sync_abort_and_ignore_semantics.1 ⟨fun _ => true, fun _ => false⟩ "p/".data
    [⟨"p/a".data, [1]⟩] [⟨"p/b".data, [2]⟩] ([], [], []) (.localIo "a".data) (by decide)

theorem writePhase_inv (fb : FsBehavior) (root : FPath)
    (P : FS × List FPath × List Ev → Prop)
    (hf : ∀ st e st', processEntry fb root st e = .ok st' → P st → P st') :
    ∀ (arch : List ZipEntry) (st out : FS × List FPath × List Ev),
      writePhase fb root st arch = .ok out → P st → P out := by
  intro arch
  induction arch with
  | nil =>
    intro st out h hp
    simp only [writePhase] at h
    injection h with h
    rwa [← h]
  | cons a l ih =>
    intro st out h hp
    simp only [writePhase] at h
    cases hq : processEntry fb root st a with
    | error e =>
      rw [hq] at h
      exact Except.noConfusion h
    | ok st' =>
      rw [hq] at h
      exact ih st' out h (hf st a st' hq hp)

theorem foldl_inv {σ α : Type} (f : σ → α → σ) (P : σ → Prop)
    (hf : ∀ st a, P st → P (f st a)) :
    ∀ (l : List α) (st : σ), P st → P (l.foldl f st) := by
  intro l
  induction l with
  | nil => intro st h; simpa
  | cons a l ih =>
    intro st h
    rw [List.foldl_cons]
    exact ih _ (hf st a h)

theorem exists_mem_fsWrite (fs : FS) (q : FPath) (c : Bytes) (p : FPath)
    (h : ∃ c', (p, c') ∈ fs) : ∃ c', (p, c') ∈ fsWrite fs q c := by
  by_cases hpq : p = q
  · exact ⟨c, by rw [hpq]; exact List.mem_cons_self _ _⟩
  · obtain ⟨c', hc⟩ := h
    refine ⟨c', List.mem_cons_of_mem _ ?_⟩
    exact List.mem_filter.mpr ⟨hc, by simp [hpq]⟩

theorem processEntry_preserves_ignored (fb : FsBehavior) (root : FPath)
    (st st' : FS × List FPath × List Ev) (e : ZipEntry) (p : FPath)
    (h : processEntry fb root st e = .ok st')
    (hp : (∃ c', (p, c') ∈ st.1) ∧ Ev.deleted p ∉ st.2.2) :
    (∃ c', (p, c') ∈ st'.1) ∧ Ev.deleted p ∉ st'.2.2 := by
  cases hT : entryTarget root e with
  | none =>
    simp only [processEntry, hT] at h
    injection h with h
    rw [← h]
    exact hp
  | some rel =>
    simp only [processEntry, hT] at h
    cases hR : fsRead st.1 rel with
    | some lc =>
      simp only [hR] at h
      by_cases hc : (lc == e.content) = true
      · rw [if_pos hc] at h
        injection h with h
        rw [← h]
        exact hp
      · rw [if_neg hc] at h
        by_cases hwf : fb.writeFails rel = true
        · rw [if_pos hwf] at h
          exact absurd h (by simp)
        · rw [if_neg hwf] at h
          injection h with h
          rw [← h]
          refine ⟨exists_mem_fsWrite _ _ _ _ hp.1, ?_⟩
          intro hmem
          rcases List.mem_append.mp hmem with hh | hh
          · exact hp.2 hh
          · simp at hh
    | none =>
      simp only [hR] at h
      by_cases hwf : fb.writeFails rel = true
      · rw [if_pos hwf] at h
        exact absurd h (by simp)
      · rw [if_neg hwf] at h
        injection h with h
        rw [← h]
        refine ⟨exists_mem_fsWrite _ _ _ _ hp.1, ?_⟩
        intro hmem
        rcases List.mem_append.mp hmem with hh | hh
        · exact hp.2 hh
        · simp at hh

theorem deleteStep_preserves_ignored (fb : FsBehavior) (pr : List FPath)
    (st : FS × List Ev) (kv : FPath × Bytes) (p : FPath)
    (hignB : ignoredName p = true)
    (hp : (∃ c', (p, c') ∈ st.1) ∧ Ev.deleted p ∉ st.2) :
    (∃ c', (p, c') ∈ (deleteStep fb pr st kv).1) ∧
      Ev.deleted p ∉ (deleteStep fb pr st kv).2 := by
  unfold deleteStep
  split
  · exact hp
  split
  · exact hp
  rename_i hcont hignkv
  have hne : p ≠ kv.1 := by
    intro he
    exact hignkv (he ▸ hignB)
  constructor
  · split
    · exact hp.1
    · obtain ⟨c', hc⟩ := hp.1
      exact ⟨c', List.mem_filter.mpr ⟨hc, by simp [hne]⟩⟩
  · intro hmem
    rcases List.mem_append.mp hmem with hh | hh
    · exact hp.2 hh
    · simp at hh
      exact hne hh

/-- C6: a local file whose filename is exactly `.DS_Store` or `Thumbs.db`
is never deleted by sync: whenever sync succeeds, the file is still
present afterwards (possibly overwritten by an archive entry at the same
path) and no deletion event for it is emitted — even when no archive
entry corresponds to it. -/
theorem sync_never_deletes_ignored_names (arch : List ZipEntry) (fb : FsBehavior)
    (fs fs' : FS) (log : List Ev) (p : FPath) (c : Bytes)
    (hign : baseName p = ".DS_Store".data ∨ baseName p = "Thumbs.db".data)
    (hmem : (p, c) ∈ fs)
    (hok : sync arch fb fs = .ok (fs', log)) :
    (∃ c', (p, c') ∈ fs') ∧ Ev.deleted p ∉ log := by
  have hignB : ignoredName p = true := by
    rcases hign with h | h <;> simp [ignoredName, h]
  unfold sync at hok
  cases hw : writePhase fb (rootName arch) (fs, [], []) arch with
  | error e =>
    rw [hw] at hok
    exact absurd hok (by simp)
  | ok out =>
    obtain ⟨fs₁, pr, log₁⟩ := out
    rw [hw] at hok
    have hwp : (∃ c', (p, c') ∈ fs₁) ∧ Ev.deleted p ∉ log₁ :=
      writePhase_inv fb (rootName arch)
        (fun st => (∃ c', (p, c') ∈ st.1) ∧ Ev.deleted p ∉ st.2.2)
        (fun st a st' ha hpa => processEntry_preserves_ignored fb _ st st' a p ha hpa)
        arch (fs, [], []) (fs₁, pr, log₁) hw ⟨⟨c, hmem⟩, by simp⟩
    have hdel : (∃ c', (p, c') ∈ (deletePhase fb pr fs₁ log₁).1) ∧
        Ev.deleted p ∉ (deletePhase fb pr fs₁ log₁).2 :=
      foldl_inv (deleteStep fb pr)
        (fun st => (∃ c', (p, c') ∈ st.1) ∧ Ev.deleted p ∉ st.2)
        (fun st a hpa => deleteStep_preserves_ignored fb pr st a p hignB hpa)
        fs₁ (fs₁, log₁) hwp
    have hpair : (fs', log) = deletePhase fb pr fs₁ log₁ := by
      injection hok with hok
      exact hok.symm
    have h2 := congrArg Prod.fst hpair
    have h3 := congrArg Prod.snd hpair
    simp only [] at h2 h3
    rw [h2, h3]
    exact hdel

theorem sync_never_deletes_ignored_names_witness :
    (∃ c', (".DS_Store".data, c') ∈ [(".DS_Store".data, [1])]) ∧
      Ev.deleted ".DS_Store".data ∉ ([] : List Ev) :=
  sync_never_deletes_ignored_names [] fbOk [(".DS_Store".data, [1])]
    [(".DS_Store".data, [1])] [] ".DS_Store".data [1]
    (by decide) (by decide) (by decide)



theorem find?_filter_ne (q s : FPath) (h : q ≠ s) :
    ∀ fs : FS, (fs.filter (fun kv => !(kv.1 == s))).find? (fun kv => kv.1 == q) =
      fs.find? (fun kv => kv.1 == q) := by
  intro fs
  induction fs with
  | nil => rfl
  | cons kv l ih =>
    by_cases hks : (kv.1 == s) = true
    · have hkv1 : kv.1 = s := by simpa using hks
      have hkq : (kv.1 == q) = false := by
        simp [hkv1]
        exact fun hh => h hh.symm
      rw [List.filter_cons, if_neg (by simp [hks])]
      simp only [List.find?]
      rw [hkq]
      exact ih
    · rw [List.filter_cons, if_pos (by simp [hks])]
      simp only [List.find?]
      cases hkq : (kv.1 == q) with
      | true => rfl
      | false => exact ih

theorem fsRead_fsWrite_self (fs : FS) (p : FPath) (c : Bytes) :
    fsRead (fsWrite fs p c) p = some c := by
  simp only [fsRead, fsWrite]
  rw [List.find?_cons_of_pos _ (by simp)]
  rfl

theorem fsRead_fsWrite_ne (fs : FS) (s q : FPath) (c : Bytes) (h : q ≠ s) :
    fsRead (fsWrite fs s c) q = fsRead fs q := by
  simp only [fsRead, fsWrite]
  rw [List.find?_cons_of_neg _ (by simpa using Ne.symm h)]
  rw [find?_filter_ne q s h fs]

theorem fsRead_fsRemove_ne (fs : FS) (s q : FPath) (h : q ≠ s) :
    fsRead (fsRemove fs s) q = fsRead fs q := by
  simp only [fsRead, fsRemove]
  rw [find?_filter_ne q s h fs]

theorem processEntry_fbOk (root : FPath) (st : FS × List FPath × List Ev) (e : ZipEntry) :
    processEntry fbOk root st e = .ok (stepOk root st e) := by
  cases hT : entryTarget root e with
  | none => simp [processEntry, stepOk, hT]
  | some rel =>
    cases hR : fsRead st.1 rel with
    | some lc =>
      by_cases hc : (lc == e.content) = true
      · simp [processEntry, stepOk, hT, hR, hc]
      · simp [processEntry, stepOk, hT, hR, hc, fbOk]
    | none => simp [processEntry, stepOk, hT, hR, fbOk]

theorem writePhase_fbOk (root : FPath) :
    ∀ (arch : List ZipEntry) (st : FS × List FPath × List Ev),
      writePhase fbOk root st arch = .ok (writePure root st arch) := by
  intro arch
  induction arch with
  | nil => intro st; rfl
  | cons a l ih =>
    intro st
    simp only [writePhase, writePure, processEntry_fbOk]
    exact ih (stepOk root st a)

theorem stepOk_pr_none (root : FPath) (st : FS × List FPath × List Ev)
    (e : ZipEntry) (hT : entryTarget root e = none) :
    stepOk root st e = st := by
  simp [stepOk, hT]

theorem stepOk_pr_some (root : FPath) (st : FS × List FPath × List Ev)
    (e : ZipEntry) (rel : FPath) (hT : entryTarget root e = some rel) :
    (stepOk root st e).2.1 = rel :: st.2.1 := by
  cases hR : fsRead st.1 rel with
  | some lc =>
    by_cases hc : (lc == e.content) = true
    · simp [stepOk, hT, hR, hc]
    · simp [stepOk, hT, hR, hc]
  | none => simp [stepOk, hT, hR]

theorem stepOk_read_other (root : FPath) (st : FS × List FPath × List Ev)
    (e : ZipEntry) (p : FPath) (hp : entryTarget root e ≠ some p) :
    fsRead (stepOk root st e).1 p = fsRead st.1 p := by
  cases hT : entryTarget root e with
  | none => simp [stepOk, hT]
  | some rel =>
    have hrp : p ≠ rel := by
      intro he
      exact hp (he ▸ hT)
    cases hR : fsRead st.1 rel with
    | some lc =>
      by_cases hc : (lc == e.content) = true
      · simp [stepOk, hT, hR, hc]
      · simp only [stepOk, hT, hR]
        rw [if_neg hc]
        exact fsRead_fsWrite_ne st.1 rel p e.content hrp
    | none =>
      simp only [stepOk, hT, hR]
      exact fsRead_fsWrite_ne st.1 rel p e.content hrp

theorem stepOk_read_self (root : FPath) (st : FS × List FPath × List Ev)
    (e : ZipEntry) (rel : FPath) (hT : entryTarget root e = some rel) :
    fsRead (stepOk root st e).1 rel = some e.content := by
  cases hR : fsRead st.1 rel with
  | some lc =>
    by_cases hc : (lc == e.content) = true
    · have : lc = e.content := by simpa using hc
      simp [stepOk, hT, hR, hc, this]
    · simp only [stepOk, hT, hR]
      rw [if_neg hc]
      exact fsRead_fsWrite_self st.1 rel e.content
  | none =>
    simp only [stepOk, hT, hR]
    exact fsRead_fsWrite_self st.1 rel e.content

theorem contains_of_mem (l : List FPath) (a : FPath) (h : a ∈ l) :
    l.contains a = true :=
  List.elem_iff.mpr h

theorem mem_of_contains (l : List FPath) (a : FPath) (h : l.contains a = true) :
    a ∈ l :=
  List.elem_iff.mp h

theorem mem_fsRemove (fs : FS) (s : FPath) (kv : FPath × Bytes) :
    kv ∈ fsRemove fs s ↔ kv ∈ fs ∧ kv.1 ≠ s := by
  simp [fsRemove, List.mem_filter]

theorem writePure_pr (root : FPath) :
    ∀ (arch : List ZipEntry) (st : FS × List FPath × List Ev),
      (writePure root st arch).2.1 =
        (arch.filterMap (entryTarget root)).reverse ++ st.2.1 := by
  intro arch
  induction arch with
  | nil => intro st; simp [writePure]
  | cons a l ih =>
    intro st
    simp only [writePure]
    rw [ih (stepOk root st a)]
    cases hT : entryTarget root a with
    | none =>
      rw [stepOk_pr_none root st a hT]
      simp [List.filterMap_cons, hT]
    | some rel =>
      rw [stepOk_pr_some root st a rel hT]
      simp [List.filterMap_cons, hT]

theorem writePure_read_frame (root : FPath) :
    ∀ (arch : List ZipEntry) (st : FS × List FPath × List Ev) (p : FPath),
      (∀ e ∈ arch, entryTarget root e ≠ some p) →
      fsRead (writePure root st arch).1 p = fsRead st.1 p := by
  intro arch
  induction arch with
  | nil => intro st p _; rfl
  | cons a l ih =>
    intro st p hall
    simp only [writePure]
    rw [ih (stepOk root st a) p (fun e he => hall e (List.mem_cons_of_mem a he))]
    exact stepOk_read_other root st a p (hall a (List.mem_cons_self a l))

theorem writePure_read_target (root : FPath) :
    ∀ (arch : List ZipEntry) (st : FS × List FPath × List Ev) (e : ZipEntry) (p : FPath),
      (arch.filterMap (entryTarget root)).Nodup →
      e ∈ arch → entryTarget root e = some p →
      fsRead (writePure root st arch).1 p = some e.content := by
  intro arch
  induction arch with
  | nil =>
    intro st e p _ he _
    exact absurd he (List.not_mem_nil e)
  | cons a l ih =>
    intro st e p hnd he hT
    simp only [writePure]
    obtain hEq | hmem := List.mem_cons.mp he
    · subst hEq
      have hrest : ∀ e' ∈ l, entryTarget root e' ≠ some p := by
        intro e' he' hT'
        have hpmem : p ∈ l.filterMap (entryTarget root) :=
          List.mem_filterMap.mpr ⟨e', he', hT'⟩
        rw [List.filterMap_cons, hT] at hnd
        exact (List.nodup_cons.mp hnd).1 hpmem
      rw [writePure_read_frame root l (stepOk root st e) p hrest]
      exact stepOk_read_self root st e p hT
    · have hnd' : (l.filterMap (entryTarget root)).Nodup := by
        cases hTa : entryTarget root a with
        | none =>
          rw [List.filterMap_cons, hTa] at hnd
          exact hnd
        | some q =>
          rw [List.filterMap_cons, hTa] at hnd
          exact hnd.of_cons
      exact ih (stepOk root st a) e p hnd' hmem hT

theorem writePure_noop (root : FPath) :
    ∀ (arch : List ZipEntry) (st : FS × List FPath × List Ev),
      (∀ e ∈ arch, ∀ q, entryTarget root e = some q → fsRead st.1 q = some e.content) →
      writePure root st arch =
        (st.1, (arch.filterMap (entryTarget root)).reverse ++ st.2.1, st.2.2) := by
  intro arch
  induction arch with
  | nil => intro st _; simp [writePure]
  | cons a l ih =>
    intro st h
    simp only [writePure]
    cases hT : entryTarget root a with
    | none =>
      rw [stepOk_pr_none root st a hT]
      rw [ih st (fun e he => h e (List.mem_cons_of_mem a he))]
      simp [List.filterMap_cons, hT]
    | some rel =>
      have hread : fsRead st.1 rel = some a.content :=
        h a (List.mem_cons_self a l) rel hT
      have hstep : stepOk root st a = (st.1, rel :: st.2.1, st.2.2) := by
        simp [stepOk, hT, hread]
      have hh : ∀ e ∈ l, ∀ q, entryTarget root e = some q →
          fsRead (st.1, rel :: st.2.1, st.2.2).1 q = some e.content := by
        intro e he q hTq
        exact h e (List.mem_cons_of_mem a he) q hTq
      rw [hstep, ih (st.1, rel :: st.2.1, st.2.2) hh]
      simp [List.filterMap_cons, hT]

theorem deleteFold_noop (fb : FsBehavior) (pr : List FPath) :
    ∀ (L : List (FPath × Bytes)) (st : FS × List Ev),
      (∀ kv ∈ L, pr.contains kv.1 = true ∨ ignoredName kv.1 = true) →
      L.foldl (deleteStep fb pr) st = st := by
  intro L
  induction L with
  | nil => intro st _; rfl
  | cons a L ih =>
    intro st hall
    rw [List.foldl_cons]
    have hstep : deleteStep fb pr st a = st := by
      rcases hall a (List.mem_cons_self a L) with h | h
      · simp [deleteStep, mem_of_contains pr a.1 h]
      · simp [deleteStep, h]
    rw [hstep]
    exact ih st (fun kv hkv => hall kv (List.mem_cons_of_mem a hkv))

theorem deleteFold_mem (pr : List FPath) :
    ∀ (L : List (FPath × Bytes)) (st : FS × List Ev) (kv : FPath × Bytes),
      kv ∈ (L.foldl (deleteStep fbOk pr) st).1 →
      kv ∈ st.1 ∧ (kv.1 ∈ L.map Prod.fst →
        pr.contains kv.1 = true ∨ ignoredName kv.1 = true) := by
  intro L
  induction L with
  | nil =>
    intro st kv h
    exact ⟨h, fun hm => absurd hm (by simp)⟩
  | cons a L ih =>
    intro st kv h
    rw [List.foldl_cons] at h
    obtain ⟨h1, h2⟩ := ih (deleteStep fbOk pr st a) kv h
    by_cases hca : pr.contains a.1 = true
    · rw [show deleteStep fbOk pr st a = st from by
        simp [deleteStep, mem_of_contains pr a.1 hca]] at h1
      refine ⟨h1, ?_⟩
      intro hm
      rcases List.mem_cons.mp hm with hm | hm
      · exact Or.inl (hm ▸ hca)
      · exact h2 hm
    · have hca' : a.1 ∉ pr := fun hm => hca (contains_of_mem pr a.1 hm)
      by_cases hia : ignoredName a.1 = true
      · rw [show deleteStep fbOk pr st a = st from by simp [deleteStep, hia]] at h1
        refine ⟨h1, ?_⟩
        intro hm
        rcases List.mem_cons.mp hm with hm | hm
        · exact Or.inr (hm ▸ hia)
        · exact h2 hm
      · have hstep : deleteStep fbOk pr st a =
            (fsRemove st.1 a.1, st.2 ++ [Ev.deleted a.1]) := by
          simp [deleteStep, hca', hia, fbOk]
        rw [hstep] at h1
        obtain ⟨h1, hne⟩ := (mem_fsRemove st.1 a.1 kv).mp h1
        refine ⟨h1, ?_⟩
        intro hm
        rcases List.mem_cons.mp hm with hm | hm
        · exact absurd hm hne
        · exact h2 hm

theorem deleteFold_read_contains (pr : List FPath) :
    ∀ (L : List (FPath × Bytes)) (st : FS × List Ev) (q : FPath),
      pr.contains q = true →
      fsRead (L.foldl (deleteStep fbOk pr) st).1 q = fsRead st.1 q := by
  intro L
  induction L with
  | nil => intro st q _; rfl
  | cons a L ih =>
    intro st q hq
    rw [List.foldl_cons]
    rw [ih (deleteStep fbOk pr st a) q hq]
    by_cases hca : pr.contains a.1 = true
    · simp [deleteStep, mem_of_contains pr a.1 hca]
    · have hca' : a.1 ∉ pr := fun hm => hca (contains_of_mem pr a.1 hm)
      by_cases hia : ignoredName a.1 = true
      · simp [deleteStep, hca', hia]
      · have hqa : q ≠ a.1 := by
          intro he
          exact hca (he ▸ hq)
        have hstep : deleteStep fbOk pr st a =
            (fsRemove st.1 a.1, st.2 ++ [Ev.deleted a.1]) := by
          simp [deleteStep, hca', hia, fbOk]
        rw [hstep]
        exact fsRead_fsRemove_ne st.1 a.1 q hqa

/-- The raw-key engine for idempotence: on the string-keyed model, a
second sync run after a successful one changes nothing and logs nothing,
provided no two entries share a target string.  This matches the program
only on normalized targets (the string keying diverges from the real file
locations on paths with `..` or `.` segments, where even a single-entry
archive such as `p/x/../a` makes the program write outside the processed
set and then delete its own output); the claim-level theorem below adds
the normalization hypothesis and the bridge to real locations. -/
theorem sync_second_run_noop_raw (arch : List ZipEntry) (fs fs₁ : FS)
    (log₁ : List Ev)
    (hnd : (arch.filterMap (entryTarget (rootName arch))).Nodup)
    (h1 : sync arch fbOk fs = .ok (fs₁, log₁)) :
    sync arch fbOk fs₁ = .ok (fs₁, []) := by
  rcases hww : writePure (rootName arch) (fs, [], []) arch with ⟨fsW, prW, logW⟩
  have hw1 : writePhase fbOk (rootName arch) (fs, [], []) arch = .ok (fsW, prW, logW) := by
    rw [writePhase_fbOk, hww]
  unfold sync at h1
  rw [hw1] at h1
  have hDel : deletePhase fbOk prW fsW logW = (fs₁, log₁) := by
    injection h1 with h1
  have hfs₁ : fs₁ = (deletePhase fbOk prW fsW logW).1 := by rw [hDel]
  have hpr : prW = (arch.filterMap (entryTarget (rootName arch))).reverse ++ ([] : List FPath) := by
    have h := writePure_pr (rootName arch) arch (fs, [], [])
    rw [hww] at h
    exact h
  have hcontains : ∀ q, q ∈ arch.filterMap (entryTarget (rootName arch)) →
      prW.contains q = true := by
    intro q hq
    apply contains_of_mem
    rw [hpr]
    simp [hq]
  have hread1 : ∀ e ∈ arch, ∀ q, entryTarget (rootName arch) e = some q →
      fsRead fsW q = some e.content := by
    intro e he q hT
    have h := writePure_read_target (rootName arch) arch (fs, [], []) e q hnd he hT
    rw [hww] at h
    exact h
  have hread2 : ∀ e ∈ arch, ∀ q, entryTarget (rootName arch) e = some q →
      fsRead fs₁ q = some e.content := by
    intro e he q hT
    rw [hfs₁]
    have hc := hcontains q (List.mem_filterMap.mpr ⟨e, he, hT⟩)
    have h := deleteFold_read_contains prW fsW (fsW, logW) q hc
    rw [show fsRead (fsW, logW).1 q = fsRead fsW q from rfl] at h
    rw [show (deletePhase fbOk prW fsW logW).1 =
        (fsW.foldl (deleteStep fbOk prW) (fsW, logW)).1 from rfl]
    rw [h]
    exact hread1 e he q hT
  have hkeep : ∀ kv ∈ fs₁, prW.contains kv.1 = true ∨ ignoredName kv.1 = true := by
    intro kv hkv
    rw [hfs₁] at hkv
    have h := deleteFold_mem prW fsW (fsW, logW) kv hkv
    exact h.2 (List.mem_map_of_mem Prod.fst h.1)
  have hw2 := writePure_noop (rootName arch) arch (fs₁, [], [])
    (fun e he q hT => hread2 e he q hT)
  unfold sync
  rw [writePhase_fbOk, hw2]
  have hD2 : deletePhase fbOk
      ((arch.filterMap (entryTarget (rootName arch))).reverse ++ ([] : List FPath))
      fs₁ [] = (fs₁, []) := by
    unfold deletePhase
    apply deleteFold_noop
    intro kv hkv
    have h := hkeep kv hkv
    rwa [hpr] at h
  exact congrArg Except.ok hD2

theorem splitSlash_cons_slash (rest : FPath) :
    splitSlash ('/' :: rest) = [] :: splitSlash rest := by
  simp [splitSlash]

theorem splitSlash_cons_other (c : Char) (rest : FPath) (hc : ¬c = '/') :
    splitSlash (c :: rest) =
      (c :: (splitSlash rest).headD []) :: (splitSlash rest).tail := by
  simp [splitSlash, hc]

theorem splitSlash_ne_nil (p : FPath) : splitSlash p ≠ [] := by
  cases p with
  | nil => simp [splitSlash]
  | cons c rest =>
    by_cases hc : c = '/'
    · subst hc
      rw [splitSlash_cons_slash]
      simp
    · rw [splitSlash_cons_other c rest hc]
      simp

theorem joinSegs_splitSlash (p : FPath) :
    (∀ s ∈ (splitSlash p).tail, s ≠ []) → joinSegs (splitSlash p) = p := by
  induction p with
  | nil => intro _; rfl
  | cons c rest ih =>
    intro h
    obtain ⟨hd, tl, hS⟩ : ∃ hd tl, splitSlash rest = hd :: tl := by
      cases hS : splitSlash rest with
      | nil => exact absurd hS (splitSlash_ne_nil rest)
      | cons hd tl => exact ⟨hd, tl, rfl⟩
    by_cases hc : c = '/'
    · subst hc
      rw [splitSlash_cons_slash, hS] at h ⊢
      simp only [List.tail_cons] at h
      have hih : joinSegs (splitSlash rest) = rest := by
        apply ih
        intro s hs
        rw [hS, List.tail_cons] at hs
        exact h s (List.mem_cons_of_mem hd hs)
      rw [hS] at hih
      simp only [joinSegs, List.nil_append]
      rw [hih]
    · rw [splitSlash_cons_other c rest hc, hS] at h ⊢
      simp only [List.headD_cons, List.tail_cons] at h ⊢
      have hih : joinSegs (splitSlash rest) = rest := by
        apply ih
        intro s hs
        rw [hS, List.tail_cons] at hs
        exact h s hs
      rw [hS] at hih
      cases tl with
      | nil =>
        simp only [joinSegs] at hih ⊢
        rw [hih]
      | cons t1 ts =>
        simp only [joinSegs] at hih ⊢
        rw [List.cons_append, hih]

theorem resolveDots_no_dotdot (segs : List FPath)
    (h : ∀ s ∈ segs, s ≠ ['.', '.']) :
    resolveDots segs = segs := by
  suffices haux : ∀ (l : List FPath) (acc : List FPath), (∀ s ∈ l, s ≠ ['.', '.']) →
      l.foldl (fun acc seg => if seg = ['.', '.'] then acc.dropLast else acc ++ [seg]) acc =
        acc ++ l by
    simpa [resolveDots] using haux segs [] h
  intro l
  induction l with
  | nil => intro acc _; simp
  | cons a l ih =>
    intro acc hall
    rw [List.foldl_cons, if_neg (hall a (List.mem_cons_self a l))]
    rw [ih (acc ++ [a]) (fun s hs => hall s (List.mem_cons_of_mem a hs))]
    simp

theorem clean_segments (p : FPath) (h : cleanPath p = true) :
    pathSegments p = splitSlash p ∧ (∀ s ∈ pathSegments p, s ≠ ['.', '.']) ∧
      joinSegs (pathSegments p) = p := by
  have hall := List.all_eq_true.mp h
  have hsplit : ∀ s ∈ splitSlash p, s.isEmpty = false ∧ s ≠ ['.'] ∧ s ≠ ['.', '.'] := by
    intro s hs
    have hx := hall s hs
    simp only [Bool.and_eq_true, Bool.not_eq_true'] at hx
    refine ⟨hx.1.1, ?_, ?_⟩
    · simpa using hx.1.2
    · simpa using hx.2
  have hseg : pathSegments p = splitSlash p := by
    unfold pathSegments
    apply List.filter_eq_self.mpr
    intro s hs
    simp [(hsplit s hs).1]
  refine ⟨hseg, ?_, ?_⟩
  · intro s hs
    rw [hseg] at hs
    exact (hsplit s hs).2.2
  · rw [hseg]
    apply joinSegs_splitSlash
    intro s hs
    have hmem := List.mem_of_mem_tail hs
    intro hnil
    have := (hsplit s hmem).1
    rw [hnil] at this
    simp at this

/-- C1 (amended): for every archive whose extracted targets are pairwise
distinct normalized relative paths (nonempty slash-separated segments,
none `.` or `..` — the form GitHub zipball entries take; a zip with
duplicate names, or with a `..` segment such as `p/x/../a` whose real
write location diverges from the recorded processed path, violates the
claim), running sync once successfully and then again with the same
unchanged archive performs no file writes and no file deletions on the
second run, which returns the unchanged state with an empty event log.
On such targets the model's string keying is the real file layout: each
target's location is exactly the mod root extended by its segments (never
escaping the root), and distinct targets denote distinct files. -/
theorem sync_idempotent_normalized_targets (arch : List ZipEntry) (fs fs₁ : FS)
    (log₁ : List Ev)
    (hnd : (arch.filterMap (entryTarget (rootName arch))).Nodup)
    (hclean : ∀ p ∈ arch.filterMap (entryTarget (rootName arch)), cleanPath p = true)
    (h1 : sync arch fbOk fs = .ok (fs₁, log₁)) :
    sync arch fbOk fs₁ = .ok (fs₁, []) ∧
    (∀ p ∈ arch.filterMap (entryTarget (rootName arch)), ∀ modRoot : List FPath,
      (∀ s ∈ modRoot, s ≠ ['.', '.']) →
      targetRealPath modRoot p = modRoot ++ pathSegments p ∧
        escapesRoot modRoot p = false) ∧
    (∀ p ∈ arch.filterMap (entryTarget (rootName arch)),
      ∀ q ∈ arch.filterMap (entryTarget (rootName arch)),
      pathSegments p = pathSegments q → p = q) := by
  refine ⟨sync_second_run_noop_raw arch fs fs₁ log₁ hnd h1, ?_, ?_⟩
  · intro p hp modRoot hroot
    obtain ⟨hseg, hnodd, hjoin⟩ := clean_segments p (hclean p hp)
    have htrp : targetRealPath modRoot p = modRoot ++ pathSegments p := by
      unfold targetRealPath
      apply resolveDots_no_dotdot
      intro s hs
      rcases List.mem_append.mp hs with hs | hs
      · exact hroot s hs
      · exact hnodd s hs
    refine ⟨htrp, ?_⟩
    have hpre : modRoot.isPrefixOf (modRoot ++ pathSegments p) = true :=
      List.isPrefixOf_iff_prefix.mpr (List.prefix_append modRoot (pathSegments p))
    simp [escapesRoot, htrp, hpre]
  · intro p hp q hq heq
    obtain ⟨_, _, hjp⟩ := clean_segments p (hclean p hp)
    obtain ⟨_, _, hjq⟩ := clean_segments q (hclean q hq)
    rw [← hjp, ← hjq, heq]

theorem sync_idempotent_normalized_targets_witness :
    sync [⟨"p/a".data, [1]⟩] fbOk [("a".data, [1])] = .ok ([("a".data, [1])], []) :=
  (sync_idempotent_normalized_targets [⟨"p/a".data, [1]⟩] [("junk".data, [0])]
    [("a".data, [1])] [Ev.new "a".data, Ev.deleted "junk".data]
    (by decide) (by decide) (by decide)).1
